import Mathlib

/- Formal model of `src/Python/rename_spanish_mp3.py`.

   Strings are modelled as lists of Unicode code points (`Str := List Nat`),
   so that every transform of the script becomes a computable function on
   `Str`.  Character-class predicates (`\s`, `\w`, `[A-Z]`, `str.isupper`,
   `str.lower`, the emoji ranges, the filesystem-illegal set) are modelled
   code-point-wise over the Basic Latin, Latin-1 and Latin Extended ranges,
   which covers every range the script's regular expressions name
   explicitly. -/

abbrev Str := List Nat

/-- Python whitespace (`str.isspace` / regex `\s`): ASCII whitespace and
control separators plus the Unicode space characters. -/
def pyIsSpace (c : Nat) : Bool :=
  (9 ≤ c && c ≤ 13) || (28 ≤ c && c ≤ 31) || c == 32 || c == 133 || c == 160 ||
  c == 0x1680 || (0x2000 ≤ c && c ≤ 0x200A) || c == 0x2028 || c == 0x2029 ||
  c == 0x202F || c == 0x205F || c == 0x3000

/-- Regex `[A-Z]` (ASCII). -/
def isUpperAZ (c : Nat) : Bool := 65 ≤ c && c ≤ 90

/-- Regex `[A-Za-z]` (ASCII letters), used by the all-caps-drop comparison. -/
def azLetter (c : Nat) : Bool := (65 ≤ c && c ≤ 90) || (97 ≤ c && c ≤ 122)

/-- Regex `[A-Za-zÀ-ÖØ-öø-ÿ]` from `choose_best_segment`'s `alpha_count`. -/
def alphaLatin (c : Nat) : Bool :=
  (65 ≤ c && c ≤ 90) || (97 ≤ c && c ≤ 122) ||
  (0xC0 ≤ c && c ≤ 0xD6) || (0xD8 ≤ c && c ≤ 0xF6) || (0xF8 ≤ c && c ≤ 0xFF)

/-- Python `str.isupper` on a single code point (Basic Latin and Latin-1). -/
def pyIsUpper (c : Nat) : Bool :=
  (65 ≤ c && c ≤ 90) || (0xC0 ≤ c && c ≤ 0xD6) || (0xD8 ≤ c && c ≤ 0xDE)

/-- Regex `\w` (word character: letters, digits, underscore), modelled on
Basic Latin, Latin-1 and Latin Extended-A/B. -/
def isWordChar (c : Nat) : Bool :=
  (48 ≤ c && c ≤ 57) || (65 ≤ c && c ≤ 90) || (97 ≤ c && c ≤ 122) || c == 95 ||
  c == 0xAA || c == 0xB5 || c == 0xBA ||
  (0xC0 ≤ c && c ≤ 0xD6) || (0xD8 ≤ c && c ≤ 0xF6) || (0xF8 ≤ c && c ≤ 0x24F)

/-- The code-point ranges of `EMOJI_PATTERN`. -/
def isEmoji (c : Nat) : Bool :=
  (0x1F300 ≤ c && c ≤ 0x1F5FF) || (0x1F600 ≤ c && c ≤ 0x1F64F) ||
  (0x1F680 ≤ c && c ≤ 0x1F6FF) || (0x1F700 ≤ c && c ≤ 0x1F77F) ||
  (0x1F780 ≤ c && c ≤ 0x1F7FF) || (0x1F800 ≤ c && c ≤ 0x1F8FF) ||
  (0x1F900 ≤ c && c ≤ 0x1F9FF) || (0x1FA00 ≤ c && c ≤ 0x1FA6F) ||
  (0x1FA70 ≤ c && c ≤ 0x1FAFF) || (0x2600 ≤ c && c ≤ 0x26FF) ||
  (0x2700 ≤ c && c ≤ 0x27BF)

/-- A code point `make_safe_filename` keeps: not a control character
(U+0000 - U+001F) and not one of `<>:"/\|?*`. -/
def isLegalFs (c : Nat) : Bool :=
  !(c < 32 || c == 60 || c == 62 || c == 58 || c == 34 || c == 47 ||
    c == 92 || c == 124 || c == 63 || c == 42)

/-- ASCII lowercasing of one code point (`A`-`Z` to `a`-`z`). -/
def asciiLower (c : Nat) : Nat := if 65 ≤ c && c ≤ 90 then c + 32 else c

/-- Python `str.lower` on a code point, modelled on Basic Latin and Latin-1. -/
def pyLowerChar (c : Nat) : Nat :=
  if (65 ≤ c && c ≤ 90) || (0xC0 ≤ c && c ≤ 0xD6) || (0xD8 ≤ c && c ≤ 0xDE)
  then c + 32 else c

/-- Python `str.lower` on a string. -/
def pyLowerStr (s : Str) : Str := s.map pyLowerChar

/-- Remove the maximal trailing run of characters satisfying `p`. -/
def dropTrailing (p : Nat → Bool) : Str → Str
  | [] => []
  | c :: cs =>
    if (dropTrailing p cs).isEmpty && p c then [] else c :: dropTrailing p cs

/-- Python `str.strip()`: drop leading and trailing whitespace. -/
def pyStrip (s : Str) : Str := dropTrailing pyIsSpace (s.dropWhile pyIsSpace)

/-- `make_safe_filename`: delete filesystem-illegal characters, then strip
surrounding whitespace. -/
def makeSafeFilename (s : Str) : Str := pyStrip (s.filter isLegalFs)

/-- First element of a list, as an option (for stating endpoint facts). -/
def headOpt : Str → Option Nat
  | [] => none
  | c :: _ => some c

/-- Last element of a list, as an option. -/
def lastOpt : Str → Option Nat
  | [] => none
  | c :: cs =>
    match cs with
    | [] => some c
    | _ :: _ => lastOpt cs

/-- A string with no leading and no trailing whitespace. -/
def noSurroundWs (s : Str) : Bool :=
  ((headOpt s).all fun c => !pyIsSpace c) && ((lastOpt s).all fun c => !pyIsSpace c)

/-- `s.replace('_', ' ')`. -/
def replaceUnderscores (s : Str) : Str := s.map fun c => if c == 95 then 32 else c

/-- `remove_emojis`: delete every character in the emoji ranges. -/
def removeEmojis (s : Str) : Str := s.filter fun c => !isEmoji c

/-- Match a literal lowercase word case-insensitively (regex `IGNORECASE`)
at the head of `s`; return the remainder on success. -/
def matchLowerLit : Str → Str → Option Str
  | [], s => some s
  | _ :: _, [] => none
  | a :: as, c :: cs => if asciiLower c == a then matchLowerLit as cs else none

/-- Try the pattern `how\s*to\s*spanish\s*podcast` (case-insensitive) at the
head of `s`; return the remainder after the match.  Each `\s*` is the maximal
whitespace run, which is forced because the following literal starts with a
non-whitespace character. -/
def tagMatch (s : Str) : Option Str :=
  (matchLowerLit [104, 111, 119] s).bind fun r1 =>
    (matchLowerLit [116, 111] (r1.dropWhile pyIsSpace)).bind fun r2 =>
      (matchLowerLit [115, 112, 97, 110, 105, 115, 104] (r2.dropWhile pyIsSpace)).bind fun r3 =>
        matchLowerLit [112, 111, 100, 99, 97, 115, 116] (r3.dropWhile pyIsSpace)

/-- Scan for non-overlapping occurrences of the boilerplate pattern and
delete each (fuel-indexed; the fuel is the string length, which suffices
because every match consumes at least one character). -/
def rktAux : Nat → Str → Str
  | 0, s => s
  | _ + 1, [] => []
  | f + 1, c :: cs =>
    match tagMatch (c :: cs) with
    | some r => rktAux f r
    | none => c :: rktAux f cs

/-- `remove_known_tags`: `re.sub(r'how\s*to\s*spanish\s*podcast', '', s, IGNORECASE)`. -/
def removeKnownTags (s : Str) : Str := rktAux s.length s

/-- Remainder after the first `]` (code 93), if any. -/
def afterCloseSq : Str → Option Str
  | [] => none
  | c :: cs => if c == 93 then some cs else afterCloseSq cs

/-- Remainder after the first `)` (code 41), if any. -/
def afterCloseRd : Str → Option Str
  | [] => none
  | c :: cs => if c == 41 then some cs else afterCloseRd cs

/-- Delete every `[...]` group (regex `\[[^\]]*\]`, leftmost non-overlapping). -/
def removeSquareAux : Nat → Str → Str
  | 0, s => s
  | _ + 1, [] => []
  | f + 1, c :: cs =>
    if c == 91 then
      match afterCloseSq cs with
      | some rest => removeSquareAux f rest
      | none => c :: removeSquareAux f cs
    else c :: removeSquareAux f cs

def removeSquare (s : Str) : Str := removeSquareAux s.length s

/-- Does `cs` continue as `[^)]*\)` followed only by whitespace?  This is the
condition under which `\s*\([^)]*\)\s*$` matches from an opening parenthesis,
since `$` only holds at the end of the string or before a final newline and
the newline itself is whitespace. -/
def parenThenWsEnd (cs : Str) : Bool :=
  match afterCloseRd cs with
  | some rest => rest.all pyIsSpace
  | none => false

/-- Everything before the leftmost `(` opening a trailing parenthetical
group, or `none` when `\s*\([^)]*\)\s*$` has no match. -/
def beforeTrailingParen : Str → Option Str
  | [] => none
  | c :: cs =>
    if c == 40 && parenThenWsEnd cs then some []
    else (beforeTrailingParen cs).map fun r => c :: r

/-- `re.sub(r'\s*\([^)]*\)\s*$', '', s)`: delete a trailing parenthetical
group together with the whitespace around it. -/
def removeTrailingParen (s : Str) : Str :=
  match beforeTrailingParen s with
  | some pre => dropTrailing pyIsSpace pre
  | none => s

/-- `re.sub(r'\([^)]*\)', ' ', s)`: replace every remaining parenthetical
group with a single space. -/
def removeMidParensAux : Nat → Str → Str
  | 0, s => s
  | _ + 1, [] => []
  | f + 1, c :: cs =>
    if c == 40 then
      match afterCloseRd cs with
      | some rest => 32 :: removeMidParensAux f rest
      | none => c :: removeMidParensAux f cs
    else c :: removeMidParensAux f cs

def removeMidParens (s : Str) : Str := removeMidParensAux s.length s

/-- `strip_brackets_and_parentheses`: square brackets, then the trailing
group, then remaining groups. -/
def stripBracketsParens (s : Str) : Str :=
  removeMidParens (removeTrailingParen (removeSquare s))

/-- `strip_leading_noise`: delete the leading run of non-word characters. -/
def stripLeadingNoise (s : Str) : Str := s.dropWhile fun c => !isWordChar c

/-- `strip_trailing_noise`: delete the trailing run of non-word characters. -/
def stripTrailingNoise (s : Str) : Str := dropTrailing (fun c => !isWordChar c) s

/-- Collapse every maximal whitespace run to a single space (regex `\s+`
to `' '`). -/
def collapseWs : Str → Str
  | [] => []
  | c :: cs =>
    if pyIsSpace c then
      match cs with
      | d :: _ => if pyIsSpace d then collapseWs cs else 32 :: collapseWs cs
      | [] => [32]
    else c :: collapseWs cs

/-- The punctuation set of `s.strip(" -–—_:;,.")`. -/
def isTrimPunct (c : Nat) : Bool :=
  c == 32 || c == 45 || c == 0x2013 || c == 0x2014 || c == 95 || c == 58 ||
  c == 59 || c == 44 || c == 46

/-- `sanitize_whitespace_and_punct`: collapse whitespace, strip it, then
strip surrounding punctuation. -/
def sanitizeWsPunct (s : Str) : Str :=
  dropTrailing isTrimPunct ((pyStrip (collapseWs s)).dropWhile isTrimPunct)

/-- Does `pat` occur at the head of `s`? -/
def leadEq : Str → Str → Bool
  | [], _ => true
  | _ :: _, [] => false
  | a :: as, b :: bs => a == b && leadEq as bs

/-- Python substring test `pat in s`. -/
def subOccurs (pat : Str) : Str → Bool
  | [] => leadEq pat []
  | c :: cs => leadEq pat (c :: cs) || subOccurs pat cs

/-- The separator condition of `extract_title`:
`' - ' in s or ' — ' in s or ' – ' in s or ':' in s`. -/
def sepCondition (s : Str) : Bool :=
  subOccurs [32, 45, 32] s || subOccurs [32, 0x2014, 32] s ||
  subOccurs [32, 0x2013, 32] s || s.any fun c => c == 58

/-- One of the separator characters of the split class `[-—–:]`. -/
def isSepChar (c : Nat) : Bool := c == 45 || c == 0x2014 || c == 0x2013 || c == 58

/-- Prepend a character to the first segment of a split result. -/
def consHead (a : Nat) : List Str → List Str
  | [] => [[a]]
  | h :: t => (a :: h) :: t

/-- `re.split(r'\s[-—–:]\s', s)`: split on every (whitespace, separator,
whitespace) triple, leftmost non-overlapping. -/
def splitSeps : Str → List Str
  | a :: b :: c :: rest2 =>
    if pyIsSpace a && isSepChar b && pyIsSpace c then [] :: splitSeps rest2
    else consHead a (splitSeps (b :: c :: rest2))
  | a :: rest => consHead a (splitSeps rest)
  | [] => [[]]

/-- Maximal runs of word characters (`re.findall(r"\b\w+\b", seg)`). -/
def wordsOf : Str → List Str
  | [] => []
  | c :: cs =>
    let r := wordsOf cs
    if isWordChar c then
      match cs with
      | d :: _ => if isWordChar d then consHead c r else [c] :: r
      | [] => [[c]]
    else r

/-- The tag keyword list of `choose_best_segment`. -/
def tagWords : List Str :=
  [[108, 105, 115, 116, 101, 110, 105, 110, 103],
   [115, 112, 97, 110, 105, 115, 104],
   [97, 117, 100, 105, 111],
   [112, 111, 100, 99, 97, 115, 116],
   [108, 101, 99, 116, 117, 114, 101],
   [109, 112, 51]]

/-- The per-segment score of `choose_best_segment`: Latin-letter count plus
5 per word starting with an uppercase letter, minus 5 per distinct tag
keyword occurring in the lowercased segment. -/
def score (seg : Str) : Int :=
  (seg.countP alphaLatin : Int) +
  5 * ((wordsOf seg).countP fun w =>
        match w with
        | [] => false
        | c :: _ => pyIsUpper c) -
  5 * (tagWords.countP fun tag => subOccurs tag (pyLowerStr seg))

/-- Python comparison of code-point strings (`a <= b`). -/
def lexLEb : Str → Str → Bool
  | [], _ => true
  | _ :: _, [] => false
  | a :: as, b :: bs => if a < b then true else if a == b then lexLEb as bs else false

/-- Python tuple comparison on `(score, trimmed segment)` pairs. -/
def pairLEb (a b : Int × Str) : Bool :=
  if a.1 < b.1 then true else if a.1 = b.1 then lexLEb a.2 b.2 else false

/-- Descending order used by `scored.sort(reverse=True)`. -/
def rPairDesc (a b : Int × Str) : Prop := pairLEb b a = true

instance instRPairDescDec : DecidableRel rPairDesc :=
  fun a b => inferInstanceAs (Decidable (pairLEb b a = true))

/-- `choose_best_segment`: score each segment, sort the (score, trimmed
segment) pairs in descending order, return the first trimmed segment. -/
def chooseBestSegment (segments : List Str) : Str :=
  match List.insertionSort rPairDesc (segments.map fun s => (score s, pyStrip s)) with
  | [] => []
  | x :: _ => x.2

/-- The match of `^([A-Z]{2,20})(\s+.+)$` against `s`, returning group 2
when the regex matches.  The leading `[A-Z]{2,20}` must cover the whole
initial uppercase run (the next pattern element is `\s`), and group 2 always
extends to the `$` position: the end of the string, or just before a final
newline.  The remainder matches `\s+.+` at that extent iff it has length at
least 2, begins with whitespace, and contains no newline after its maximal
feasible whitespace gap. -/
def capsMatch (s : Str) : Option Str :=
  let caps := s.takeWhile isUpperAZ
  let rest := s.dropWhile isUpperAZ
  let core := if rest.getLastD 0 == 10 then rest.dropLast else rest
  let wsr := (core.takeWhile pyIsSpace).length
  if 2 ≤ caps.length && caps.length ≤ 20 && 2 ≤ core.length &&
     1 ≤ wsr && !((core.drop (min wsr (core.length - 1))).any fun c => c == 10)
  then some core else none

/-- The no-separator branch of `extract_title`: on a regex match, adopt the
stripped remainder only if it has strictly more `[A-Za-z]` letters than the
whole string. -/
def allCapsDrop (s : Str) : Str :=
  match capsMatch s with
  | some core =>
    let candidate := pyStrip core
    if s.countP azLetter < candidate.countP azLetter then candidate else s
  | none => s

/-- The cleaning pipeline of `extract_title` before the segmentation
decision. -/
def preSplit (s : Str) : Str :=
  stripLeadingNoise (stripBracketsParens (removeKnownTags (removeEmojis (replaceUnderscores s))))

/-- The cleaning pipeline of `extract_title` after the segmentation
decision. -/
def postSegment (s : Str) : Str :=
  makeSafeFilename (stripTrailingNoise (sanitizeWsPunct (removeEmojis s)))

/-- The segmentation decision of `extract_title`: split on separators and
score, or try the all-caps-prefix drop. -/
def segmentPhase (s : Str) : Str :=
  if sepCondition s then chooseBestSegment (splitSeps s) else allCapsDrop s

/-- `extract_title`: clean, segment, clean again, and fall back to the
safe-name of the original stem when the result is empty. -/
def extractTitle (stem : Str) : Str :=
  if postSegment (segmentPhase (preSplit stem)) = [] then makeSafeFilename stem
  else postSegment (segmentPhase (preSplit stem))

/-- The segmentation decision with the all-caps-prefix branch deleted. -/
def segmentPhaseNoDrop (s : Str) : Str :=
  if sepCondition s then chooseBestSegment (splitSeps s) else s

/-- The variant of `extract_title` with the all-caps-prefix branch deleted,
used to state that the branch is dead code. -/
def extractTitleNoDrop (stem : Str) : Str :=
  if postSegment (segmentPhaseNoDrop (preSplit stem)) = [] then makeSafeFilename stem
  else postSegment (segmentPhaseNoDrop (preSplit stem))

/-- Decimal digits of a natural number (fuel-indexed; fuel `n` suffices). -/
def natDecAux : Nat → Nat → Str
  | 0, n => [48 + n % 10]
  | f + 1, n => if n < 10 then [48 + n] else natDecAux f (n / 10) ++ [48 + n % 10]

/-- Decimal rendering of a counter, as used in `f"{base} ({count}){ext}"`. -/
def natDec (n : Nat) : Str := natDecAux n n

/-- Decimal parsing, used to prove `natDec` injective. -/
def fromDec (l : Str) : Nat := l.foldl (fun a d => 10 * a + (d - 48)) 0

/-- A file path: directory part and file name. -/
structure FsPath where
  dir : Str
  name : Str
deriving DecidableEq

/-- Index of the last `.` in a name, if any. -/
def lastDotIdx : Str → Option Nat
  | [] => none
  | c :: cs =>
    match lastDotIdx cs with
    | some j => some (j + 1)
    | none => if c == 46 then some 0 else none

/-- `pathlib` stem/suffix split: the suffix starts at the last dot when that
dot is neither the first nor the last character. -/
def splitName (n : Str) : Str × Str :=
  match lastDotIdx n with
  | some i => if 0 < i ∧ i + 1 < n.length then (n.take i, n.drop i) else (n, [])
  | none => (n, [])

/-- The `EXTENSIONS` set: `.mp3`, `.m4a`, `.wav`, `.aac`. -/
def extOk (e : Str) : Bool :=
  decide (e = [46, 109, 112, 51]) || decide (e = [46, 109, 52, 97]) ||
  decide (e = [46, 119, 97, 118]) || decide (e = [46, 97, 97, 99])

/-- File discovery: files whose lowercased suffix is a known audio
extension. -/
def audioFiles (existing : List FsPath) : List FsPath :=
  existing.filter fun p => extOk (pyLowerStr (splitName p.name).2)

/-- Path comparison used by `sorted(files)`: directory first, then name,
each by code-point order. -/
def pathLEb (p q : FsPath) : Bool :=
  if p.dir = q.dir then lexLEb p.name q.name else lexLEb p.dir q.dir

def rPathLE (p q : FsPath) : Prop := pathLEb p q = true

instance instRPathLEDec : DecidableRel rPathLE :=
  fun p q => inferInstanceAs (Decidable (pathLEb p q = true))

/-- `sorted(files)`. -/
def sortPaths (l : List FsPath) : List FsPath := List.insertionSort rPathLE l

/-- The collision test of the planning loop: the candidate name collides if
it exists on disk as a different file than `p`, or equals a destination
already planned in `p`'s directory for a path other than `p`. -/
def badName (existing : List FsPath) (mapping : List (FsPath × FsPath))
    (p : FsPath) (cand : Str) : Bool :=
  let cp : FsPath := ⟨p.dir, cand⟩
  (decide (cp ∈ existing) && decide (¬cp = p)) ||
    mapping.any fun e => decide (e.2.dir = p.dir) && decide (¬e.2 = p) && decide (e.2 = cp)

/-- `f"{base} ({count}){ext}"`. -/
def numberedName (title ext : Str) (n : Nat) : Str :=
  title ++ 32 :: 40 :: (natDec n ++ 41 :: ext)

/-- Collision loop after the first bump: try numbered names with increasing
counters until one is free (fuel-indexed). -/
def numberedSearch (bad : Str → Bool) (title ext : Str) : Nat → Nat → Nat × Str
  | 0, n => (n, numberedName title ext n)
  | f + 1, n =>
    if bad (numberedName title ext n) then numberedSearch bad title ext f (n + 1)
    else (n, numberedName title ext n)

/-- The collision loop: try the bare `title + ext` first, then numbered
names starting from `c0 + 1`; returns the final counter and name. -/
def resolveName (bad : Str → Bool) (title ext : Str) (c0 fuel : Nat) : Nat × Str :=
  let bare := title ++ ext
  if bad bare then numberedSearch bad title ext fuel (c0 + 1) else (c0, bare)

/-- `seen_new_names` lookup. -/
def alookup : List (Str × Nat) → Str → Option Nat
  | [], _ => none
  | (k, v) :: rest, key => if k = key then some v else alookup rest key

/-- `seen_new_names` store. -/
def aupdate : List (Str × Nat) → Str → Nat → List (Str × Nat)
  | [], key, v => [(key, v)]
  | (k, w) :: rest, key, v =>
    if k = key then (key, v) :: rest else (k, w) :: aupdate rest key v

/-- One iteration of the planning loop: extract the title, resolve the
candidate name against disk and the plan so far, append the plan entry and
record the final counter. -/
def planStep (existing : List FsPath) (st : List (FsPath × FsPath) × List (Str × Nat))
    (p : FsPath) : List (FsPath × FsPath) × List (Str × Nat) :=
  let mapping := st.1
  let seen := st.2
  let title := extractTitle (splitName p.name).1
  let ext := pyLowerStr (splitName p.name).2
  let newName := title ++ ext
  let c0 := (alookup seen newName).getD 0
  let fuel := existing.length + mapping.length + 1
  let res := resolveName (badName existing mapping p) title ext c0 fuel
  (mapping ++ [(p, ⟨p.dir, res.2⟩)], aupdate seen newName res.1)

/-- The rename plan `main` builds from a directory state: discover audio
files, sort them, and run the collision-resolving loop. -/
def mainPlan (existing : List FsPath) : List (FsPath × FsPath) :=
  ((sortPaths (audioFiles existing)).foldl (planStep existing) ([], [])).1

/-- The plan invariant of the spec: a destination equal to an existing file
is the entry's own source, and equal destinations come from equal sources. -/
def planOK (existing : List FsPath) (plan : List (FsPath × FsPath)) : Bool :=
  (plan.all fun e => !decide (e.2 ∈ existing) || decide (e.2 = e.1)) &&
    plan.all fun e1 => plan.all fun e2 => !decide (e1.2 = e2.2) || decide (e1.1 = e2.1)

/-- Observable effects of a run of `main`: a preview line per plan entry,
the CSV log write, and (in apply mode) the renames. -/
inductive FsEffect where
  | preview (src dst : FsPath)
  | persist (rows : List (FsPath × FsPath))
  | rename (src dst : FsPath)
deriving DecidableEq

/-- The rename effects of apply mode: plan entries with `src == dst` are
skipped. -/
def renameEffects (plan : List (FsPath × FsPath)) : List FsEffect :=
  (plan.filter fun e => decide (¬e.1 = e.2)).map fun e => FsEffect.rename e.1 e.2

/-- The effect trace of `main`: preview every entry, persist the complete
plan, then rename only when `--apply` was given. -/
def mainRun (existing : List FsPath) (applyFlag : Bool) : List FsEffect :=
  let plan := mainPlan existing
  (plan.map fun e => FsEffect.preview e.1 e.2) ++
    FsEffect.persist plan :: (if applyFlag then renameEffects plan else [])

/-- Effect of one trace event on the set of files. -/
def applyEffect (fs : List FsPath) : FsEffect → List FsPath
  | FsEffect.rename src dst => fs.map fun q => if q = src then dst else q
  | _ => fs

/-- The directory state after a run of `main`. -/
def finalFs (existing : List FsPath) (applyFlag : Bool) : List FsPath :=
  (mainRun existing applyFlag).foldl applyEffect existing

/-- The stem `"SPANISH Learn To Cook Tacos"`. -/
def spanishTacos : Str :=
  [83, 80, 65, 78, 73, 83, 72, 32, 76, 101, 97, 114, 110, 32, 84, 111, 32,
   67, 111, 111, 107, 32, 84, 97, 99, 111, 115]

/-- The string `"Learn To Cook Tacos"` the spec expects for `spanishTacos`. -/
def learnTacos : Str :=
  [76, 101, 97, 114, 110, 32, 84, 111, 32, 67, 111, 111, 107, 32, 84, 97,
   99, 111, 115]

/-- The stem `"SPANISH PODCAST - My Great Episode (128kbit_AAC)"`. -/
def spanishPodcastStem : Str :=
  [83, 80, 65, 78, 73, 83, 72, 32, 80, 79, 68, 67, 65, 83, 84, 32, 45, 32,
   77, 121, 32, 71, 114, 101, 97, 116, 32, 69, 112, 105, 115, 111, 100, 101,
   32, 40, 49, 50, 56, 107, 98, 105, 116, 95, 65, 65, 67, 41]

/-- The string `"My Great Episode"`. -/
def myGreatEpisode : Str :=
  [77, 121, 32, 71, 114, 101, 97, 116, 32, 69, 112, 105, 115, 111, 100, 101]

theorem dropTrailing_sublist (p : Nat → Bool) : ∀ l : Str, (dropTrailing p l).Sublist l := by
  intro l
  induction l with
  | nil => exact List.Sublist.refl []
  | cons c cs ih =>
    simp only [dropTrailing]
    split
    · exact List.nil_sublist _
    · exact List.Sublist.cons₂ c ih

theorem dropTrailing_idem (p : Nat → Bool) : ∀ l : Str, dropTrailing p (dropTrailing p l) = dropTrailing p l := by
  intro l
  induction l with
  | nil => rfl
  | cons c cs ih =>
    simp only [dropTrailing]
    by_cases h : ((dropTrailing p cs).isEmpty && p c) = true
    · rw [if_pos h]; rfl
    · rw [if_neg h]
      simp only [dropTrailing, ih, if_neg h]

theorem dropTrailing_eq_nil (p : Nat → Bool) : ∀ l : Str, dropTrailing p l = [] → ∀ c ∈ l, p c = true := by
  intro l
  induction l with
  | nil => intro _ c hc; cases hc
  | cons a as ih =>
    simp only [dropTrailing]
    split
    · rename_i h
      rw [Bool.and_eq_true, List.isEmpty_iff] at h
      intro _ c hc
      rcases List.mem_cons.mp hc with he | hm
      · rw [he]; exact h.2
      · exact ih h.1 c hm
    · intro h; cases h

theorem dropTrailing_cons_shape (p : Nat → Bool) {l : Str} {c : Nat} {cs : Str}
    (h : dropTrailing p l = c :: cs) : ∃ t, l = c :: t := by
  cases l with
  | nil => cases h
  | cons a as =>
    simp only [dropTrailing] at h
    split at h
    · cases h
    · injection h with h1 _
      exact ⟨as, by rw [h1]⟩

theorem lastOpt_dropTrailing (p : Nat → Bool) : ∀ (l : Str) (x : Nat),
    lastOpt (dropTrailing p l) = some x → p x = false := by
  intro l
  induction l with
  | nil => intro x h; cases h
  | cons c cs ih =>
    intro x
    simp only [dropTrailing]
    split
    · intro h; cases h
    · rename_i h
      cases hr : dropTrailing p cs with
      | nil =>
        simp only [hr, lastOpt]
        intro he
        injection he with he
        rw [hr] at h
        simp only [List.isEmpty_nil, Bool.true_and] at h
        rw [← he]
        exact Bool.not_eq_true (p c) ▸ h
      | cons d ds =>
        simp only [hr, lastOpt]
        intro he
        exact ih x (hr ▸ he)

theorem lastOpt_isSome : ∀ (c : Nat) (cs : Str), ∃ x, lastOpt (c :: cs) = some x := by
  intro c cs
  induction cs generalizing c with
  | nil => exact ⟨c, rfl⟩
  | cons d ds ih => exact ih d

theorem dropWhile_head_false (p : Nat → Bool) : ∀ (l : Str) {c : Nat} {cs : Str},
    l.dropWhile p = c :: cs → p c = false := by
  intro l
  induction l with
  | nil => intro c cs h; cases h
  | cons a as ih =>
    intro c cs
    simp only [List.dropWhile_cons]
    split
    · exact ih
    · rename_i h
      intro he
      injection he with h1 _
      rw [← h1]
      exact Bool.not_eq_true (p a) ▸ h

theorem pyStrip_sublist (l : Str) : (pyStrip l).Sublist l :=
  (dropTrailing_sublist _ _).trans (List.dropWhile_sublist _)

theorem mem_of_mem_pyStrip {l : Str} {a : Nat} (h : a ∈ pyStrip l) : a ∈ l :=
  List.Sublist.mem h (pyStrip_sublist l)

theorem pyStrip_eq_nil_all {l : Str} (h : pyStrip l = []) : ∀ c ∈ l, pyIsSpace c = true := by
  intro c hc
  have hsplit := List.takeWhile_append_dropWhile (p := pyIsSpace) (l := l)
  rw [← hsplit] at hc
  rcases List.mem_append.mp hc with hm | hm
  · exact List.mem_takeWhile_imp hm
  · exact dropTrailing_eq_nil pyIsSpace _ h c hm

theorem pyStrip_idem (l : Str) : pyStrip (pyStrip l) = pyStrip l := by
  have hdw : (pyStrip l).dropWhile pyIsSpace = pyStrip l := by
    cases hx : pyStrip l with
    | nil => rfl
    | cons c cs =>
      obtain ⟨t, ht⟩ := dropTrailing_cons_shape pyIsSpace hx
      have hc : pyIsSpace c = false := dropWhile_head_false pyIsSpace l ht
      simp [List.dropWhile_cons, hc]
  show dropTrailing pyIsSpace ((pyStrip l).dropWhile pyIsSpace) = pyStrip l
  rw [hdw]
  exact dropTrailing_idem pyIsSpace _

theorem pyStrip_noSurround (l : Str) : noSurroundWs (pyStrip l) = true := by
  unfold noSurroundWs
  cases hx : pyStrip l with
  | nil => rfl
  | cons c cs =>
    obtain ⟨t, ht⟩ := dropTrailing_cons_shape pyIsSpace hx
    have hc : pyIsSpace c = false := dropWhile_head_false pyIsSpace l ht
    obtain ⟨x, hlx⟩ := lastOpt_isSome c cs
    have hxl : pyIsSpace x = false := lastOpt_dropTrailing pyIsSpace _ x (hx ▸ hlx)
    simp [headOpt, hlx, hc, hxl]

theorem makeSafe_all_legal (s : Str) : ∀ c ∈ makeSafeFilename s, isLegalFs c = true :=
  fun _ hc => (List.mem_filter.mp (mem_of_mem_pyStrip hc)).2

theorem makeSafe_ne_nil {s : Str} (h : ∃ c, c ∈ s ∧ isLegalFs c = true ∧ pyIsSpace c = false) :
    makeSafeFilename s ≠ [] := by
  obtain ⟨c, hc, hleg, hws⟩ := h
  intro hnil
  have hall : ∀ x ∈ s.filter isLegalFs, pyIsSpace x = true := pyStrip_eq_nil_all hnil
  have hcf : c ∈ s.filter isLegalFs := List.mem_filter.mpr ⟨hc, hleg⟩
  rw [hall c hcf] at hws
  cases hws

theorem isUpperAZ_azLetter {c : Nat} (h : isUpperAZ c = true) : azLetter c = true := by
  simp only [isUpperAZ, Bool.and_eq_true, decide_eq_true_eq] at h
  simp only [azLetter, Bool.or_eq_true, Bool.and_eq_true, decide_eq_true_eq]
  omega

theorem capsMatch_some {s core : Str} (h : capsMatch s = some core) :
    2 ≤ (s.takeWhile isUpperAZ).length ∧ core.Sublist (s.dropWhile isUpperAZ) := by
  simp only [capsMatch] at h
  split at h
  · split at h
    · rename_i hC
      injection h with h
      simp only [Bool.and_eq_true, decide_eq_true_eq] at hC
      refine ⟨hC.1.1.1.1, ?_⟩
      rw [← h]
      exact List.dropLast_sublist _
    · cases h
  · split at h
    · rename_i hC
      injection h with h
      simp only [Bool.and_eq_true, decide_eq_true_eq] at hC
      refine ⟨hC.1.1.1.1, ?_⟩
      rw [← h]
    · cases h

theorem allCapsDrop_eq (s : Str) : allCapsDrop s = s := by
  cases hm : capsMatch s with
  | none => simp [allCapsDrop, hm]
  | some core =>
    obtain ⟨h2, hsub⟩ := capsMatch_some hm
    simp only [allCapsDrop, hm]
    rw [if_neg]
    have hcand : (pyStrip core).countP azLetter ≤ (s.dropWhile isUpperAZ).countP azLetter :=
      le_trans (List.Sublist.countP_le _ (pyStrip_sublist core)) (List.Sublist.countP_le _ hsub)
    have hsplit : s.takeWhile isUpperAZ ++ s.dropWhile isUpperAZ = s :=
      List.takeWhile_append_dropWhile isUpperAZ s
    have hcnt : s.countP azLetter =
        (s.takeWhile isUpperAZ).countP azLetter + (s.dropWhile isUpperAZ).countP azLetter := by
      conv_lhs => rw [← hsplit]
      rw [List.countP_append]
    have hcaps : (s.takeWhile isUpperAZ).countP azLetter = (s.takeWhile isUpperAZ).length :=
      List.countP_eq_length.mpr fun _ ha => isUpperAZ_azLetter (List.mem_takeWhile_imp ha)
    omega

/-- Claim C8: `make_safe_filename` is idempotent:
`make_safe_filename(make_safe_filename(s)) == make_safe_filename(s)` for
every string `s`. -/
theorem makeSafeFilename_idem (s : Str) :
    makeSafeFilename (makeSafeFilename s) = makeSafeFilename s := by
  have h1 : (makeSafeFilename s).filter isLegalFs = makeSafeFilename s :=
    List.filter_eq_self.mpr (makeSafe_all_legal s)
  show pyStrip ((makeSafeFilename s).filter isLegalFs) = makeSafeFilename s
  rw [h1]
  show pyStrip (pyStrip (s.filter isLegalFs)) = pyStrip (s.filter isLegalFs)
  exact pyStrip_idem _

/-- Claim C3: for every input string, `extract_title` terminates with a
result (the model is a total function) and the result contains none of the
characters `<>:"/\|?*` and no control character U+0000 - U+001F. -/
theorem extractTitle_all_legal (stem : Str) : (extractTitle stem).all isLegalFs = true := by
  rw [List.all_eq_true]
  unfold extractTitle
  split
  · exact makeSafe_all_legal stem
  · exact makeSafe_all_legal _

/-- Claim C10: for every input string, the result of `extract_title` has no
leading and no trailing whitespace, because both the normal pipeline and the
empty-result fallback end with `make_safe_filename`, which strips
surrounding whitespace. -/
theorem extractTitle_no_surrounding_ws (stem : Str) :
    noSurroundWs (extractTitle stem) = true := by
  unfold extractTitle
  split
  · exact pyStrip_noSurround _
  · exact pyStrip_noSurround _

/-- The segmentation decision never uses the all-caps drop: the branch is a
no-op by `allCapsDrop_eq`. -/
theorem segmentPhase_eq_noDrop (s : Str) : segmentPhase s = segmentPhaseNoDrop s := by
  unfold segmentPhase segmentPhaseNoDrop
  rw [allCapsDrop_eq]

/-- Claim C9: whenever the all-caps-prefix regex matches on the no-separator
path, the trimmed remainder never has strictly more Latin letters than the
whole string (it is a substring missing at least two letters), so the branch
never modifies the string: `extract_title` is extensionally equal to the
variant of itself with that branch deleted. -/
theorem extractTitle_eq_noDrop (stem : Str) : extractTitle stem = extractTitleNoDrop stem := by
  unfold extractTitle extractTitleNoDrop
  rw [segmentPhase_eq_noDrop]

set_option maxRecDepth 4000 in
/-- Claim C2, counterexample: a single space is filesystem-legal (it is none
of `<>:"/\|?*` and no control character), yet `extract_title` maps the
one-space stem to the empty string, because both the pipeline result and the
fallback end with `str.strip()`. -/
theorem extractTitle_space_empty : isLegalFs 32 = true ∧ extractTitle [32] = [] := by
  constructor
  · rfl
  · rfl

/-- Claim C2, amended: if the input stem contains at least one character
that is filesystem-legal and not whitespace, `extract_title` returns a
non-empty string. -/
theorem extractTitle_nonempty_of_legal_nonspace (stem : Str)
    (h : ∃ c, c ∈ stem ∧ isLegalFs c = true ∧ pyIsSpace c = false) :
    extractTitle stem ≠ [] := by
  unfold extractTitle
  split
  · exact makeSafe_ne_nil h
  · rename_i hne
    exact hne

/-- Witness for the amended claim C2 at the one-letter stem `"a"`. -/
theorem extractTitle_nonempty_witness :
    (isLegalFs 97 = true ∧ pyIsSpace 97 = false) ∧ extractTitle [97] ≠ [] :=
  ⟨⟨rfl, rfl⟩, extractTitle_nonempty_of_legal_nonspace [97] ⟨97, by decide⟩⟩

set_option maxRecDepth 8000 in
/-- Claim C1: the spec expects `extract_title "SPANISH Learn To Cook Tacos"`
to drop the all-caps token and return `"Learn To Cook Tacos"`; the code
instead returns the stem unchanged, because the adoption test compares the
remainder's letter count against the whole string's, which always fails. -/
theorem extractTitle_spanishTacos_unchanged :
    extractTitle spanishTacos = spanishTacos ∧ extractTitle spanishTacos ≠ learnTacos := by
  have h : extractTitle spanishTacos = spanishTacos := by rfl
  refine ⟨h, ?_⟩
  rw [h]
  decide

set_option maxRecDepth 16000 in
/-- Claim C5: `extract_title "SPANISH PODCAST - My Great Episode (128kbit_AAC)"`
takes the separator path, the bracket stripper removes the trailing
parenthetical, the scorer prefers the right segment, and the result is
`"My Great Episode"`. -/
theorem extractTitle_spanishPodcast : extractTitle spanishPodcastStem = myGreatEpisode := by
  rfl

theorem lexLEb_refl (l : Str) : lexLEb l l = true := by
  induction l with
  | nil => rfl
  | cons a as ih => simp [lexLEb, ih]

theorem lexLEb_total (a : Str) : ∀ b : Str, lexLEb a b = true ∨ lexLEb b a = true := by
  induction a with
  | nil => intro b; left; rfl
  | cons x xs ih =>
    intro b
    cases b with
    | nil => right; rfl
    | cons y ys =>
      rcases Nat.lt_trichotomy x y with h | h | h
      · left; simp [lexLEb, h]
      · subst h
        rcases ih ys with h2 | h2
        · left; simp [lexLEb, h2]
        · right; simp [lexLEb, h2]
      · right; simp [lexLEb, h]

theorem lexLEb_trans : ∀ {a b c : Str}, lexLEb a b = true → lexLEb b c = true → lexLEb a c = true := by
  intro a
  induction a with
  | nil => intro b c _ _; rfl
  | cons x xs ih =>
    intro b c h1 h2
    cases b with
    | nil => cases h1
    | cons y ys =>
      cases c with
      | nil => cases h2
      | cons z zs =>
        simp only [lexLEb] at h1 h2 ⊢
        by_cases hxy : x < y
        · by_cases hyz : y < z
          · rw [if_pos (Nat.lt_trans hxy hyz)]
          · rw [if_neg hyz] at h2
            by_cases hyz2 : (y == z) = true
            · have he : y = z := eq_of_beq hyz2
              subst he
              rw [if_pos hxy]
            · rw [if_neg hyz2] at h2; cases h2
        · rw [if_neg hxy] at h1
          by_cases hxy2 : (x == y) = true
          · rw [if_pos hxy2] at h1
            have he : x = y := eq_of_beq hxy2
            subst he
            by_cases hyz : x < z
            · rw [if_pos hyz]
            · rw [if_neg hyz] at h2 ⊢
              by_cases hyz2 : (x == z) = true
              · rw [if_pos hyz2] at h2 ⊢
                exact ih h1 h2
              · rw [if_neg hyz2] at h2; cases h2
          · rw [if_neg hxy2] at h1; cases h1

theorem pairLEb_refl (a : Int × Str) : pairLEb a a = true := by
  simp [pairLEb, lexLEb_refl]

theorem pairLEb_elim {a b : Int × Str} (h : pairLEb a b = true) :
    a.1 < b.1 ∨ (a.1 = b.1 ∧ lexLEb a.2 b.2 = true) := by
  unfold pairLEb at h
  split at h
  · left; assumption
  · split at h
    · right; exact ⟨by assumption, h⟩
    · cases h

theorem pairLEb_intro1 {a b : Int × Str} (h : a.1 < b.1) : pairLEb a b = true := by
  unfold pairLEb
  rw [if_pos h]

theorem pairLEb_intro2 {a b : Int × Str} (he : a.1 = b.1) (h : lexLEb a.2 b.2 = true) :
    pairLEb a b = true := by
  unfold pairLEb
  rw [if_neg (by omega), if_pos he]
  exact h

theorem pairLEb_total (a b : Int × Str) : pairLEb a b = true ∨ pairLEb b a = true := by
  rcases lt_trichotomy a.1 b.1 with h | h | h
  · left; exact pairLEb_intro1 h
  · rcases lexLEb_total a.2 b.2 with h2 | h2
    · left; exact pairLEb_intro2 h h2
    · right; exact pairLEb_intro2 h.symm h2
  · right; exact pairLEb_intro1 h

theorem pairLEb_trans {a b c : Int × Str} (h1 : pairLEb a b = true) (h2 : pairLEb b c = true) :
    pairLEb a c = true := by
  rcases pairLEb_elim h1 with hl | ⟨he1, hx1⟩
  · rcases pairLEb_elim h2 with hl2 | ⟨he2, _⟩
    · exact pairLEb_intro1 (lt_trans hl hl2)
    · exact pairLEb_intro1 (by omega)
  · rcases pairLEb_elim h2 with hl2 | ⟨he2, hx2⟩
    · exact pairLEb_intro1 (by omega)
    · exact pairLEb_intro2 (he1.trans he2) (lexLEb_trans hx1 hx2)

/-- Claim C4: for a non-empty list of segments, `choose_best_segment`
returns the whitespace-trimmed segment whose pair (score, trimmed segment)
is greatest under the descending tuple sort (ties on the score broken by the
lexicographically later trimmed string); for the empty list it returns the
empty string. -/
theorem chooseBestSegment_max (segments : List Str) :
    chooseBestSegment [] = ([] : Str) ∧
    (segments = [] ∨ ∃ seg, seg ∈ segments ∧ chooseBestSegment segments = pyStrip seg ∧
      ∀ s', s' ∈ segments →
        pairLEb (score s', pyStrip s') (score seg, pyStrip seg) = true) := by
  refine ⟨rfl, ?_⟩
  cases segments with
  | nil => left; rfl
  | cons s0 rest =>
    right
    haveI : IsTotal (Int × Str) rPairDesc := ⟨fun a b => Or.symm (pairLEb_total a b)⟩
    haveI : IsTrans (Int × Str) rPairDesc := ⟨fun _ _ _ hab hbc => pairLEb_trans hbc hab⟩
    have hperm := List.perm_insertionSort rPairDesc ((s0 :: rest).map fun s => (score s, pyStrip s))
    have hsorted := List.sorted_insertionSort rPairDesc ((s0 :: rest).map fun s => (score s, pyStrip s))
    cases hsort : List.insertionSort rPairDesc ((s0 :: rest).map fun s => (score s, pyStrip s)) with
    | nil =>
      exfalso
      rw [hsort] at hperm
      have := hperm.symm.eq_nil
      simp at this
    | cons x xs =>
      rw [hsort] at hperm hsorted
      have hcb : chooseBestSegment (s0 :: rest) = x.2 := by
        unfold chooseBestSegment
        rw [hsort]
      have hxmem : x ∈ (s0 :: rest).map fun s => (score s, pyStrip s) :=
        hperm.mem_iff.mp (List.mem_cons_self x xs)
      obtain ⟨seg, hsegmem, hxeq⟩ := List.mem_map.mp hxmem
      refine ⟨seg, hsegmem, ?_, ?_⟩
      · rw [hcb, ← hxeq]
      · intro s' hs'
        have hmem' : (score s', pyStrip s') ∈ (s0 :: rest).map fun s => (score s, pyStrip s) :=
          List.mem_map.mpr ⟨s', hs', rfl⟩
        rcases List.mem_cons.mp (hperm.mem_iff.mpr hmem') with he | hm
        · rw [he, ← hxeq]
          exact pairLEb_refl _
        · rw [hxeq]
          exact List.rel_of_sorted_cons hsorted _ hm

/-- Witness for claim C4 at the two-segment list `[" a", "bb"]`: the scorer
prefers `"bb"` (score 2 against 1 + 5 for the title-case word... the exact
pairs are computed by `decide`). -/
theorem chooseBestSegment_max_witness :
    ∃ seg, seg ∈ [([32, 97] : Str), [98, 98]] ∧
      chooseBestSegment [[32, 97], [98, 98]] = pyStrip seg ∧
      ∀ s', s' ∈ [([32, 97] : Str), [98, 98]] →
        pairLEb (score s', pyStrip s') (score seg, pyStrip seg) = true :=
  (chooseBestSegment_max [[32, 97], [98, 98]]).2.resolve_left (by decide)

theorem fromDec_append_digit (l : Str) (x : Nat) :
    fromDec (l ++ [x]) = 10 * fromDec l + (x - 48) := by
  unfold fromDec
  rw [List.foldl_append]
  rfl

theorem fromDec_natDecAux : ∀ (f n : Nat), n ≤ f → fromDec (natDecAux f n) = n := by
  intro f
  induction f with
  | zero =>
    intro n hn
    have h0 : n = 0 := Nat.le_zero.mp hn
    subst h0
    rfl
  | succ f ih =>
    intro n hn
    by_cases h : n < 10
    · simp only [natDecAux, if_pos h]
      unfold fromDec
      simp only [List.foldl_cons, List.foldl_nil]
      omega
    · simp only [natDecAux, if_neg h]
      rw [fromDec_append_digit]
      have hdiv : n / 10 ≤ f := by
        have := Nat.div_lt_self (by omega : 0 < n) (by omega : 1 < 10)
        omega
      rw [ih (n / 10) hdiv]
      omega

theorem natDec_inj {m n : Nat} (h : natDec m = natDec n) : m = n := by
  have hm := fromDec_natDecAux m m (Nat.le_refl m)
  have hn := fromDec_natDecAux n n (Nat.le_refl n)
  unfold natDec at h
  rw [← hm, ← hn, h]

theorem numberedName_inj {t e : Str} {m n : Nat}
    (h : numberedName t e m = numberedName t e n) : m = n := by
  unfold numberedName at h
  have h1 := List.append_cancel_left h
  injection h1 with _ h1
  injection h1 with _ h1
  have hlen : (natDec m).length = (natDec n).length := by
    have := congrArg List.length h1
    simp only [List.length_append] at this
    omega
  exact natDec_inj (List.append_inj h1 hlen).1

theorem numberedName_ne_bare (t e : Str) (n : Nat) : numberedName t e n ≠ t ++ e := by
  intro h
  have := congrArg List.length h
  unfold numberedName at this
  simp only [List.length_append, List.length_cons] at this
  omega

theorem badName_true_mem {existing : List FsPath} {mapping : List (FsPath × FsPath)}
    {p : FsPath} {cand : Str} (h : badName existing mapping p cand = true) :
    (⟨p.dir, cand⟩ : FsPath) ∈ existing ∨ (⟨p.dir, cand⟩ : FsPath) ∈ mapping.map Prod.snd := by
  simp only [badName, Bool.or_eq_true, Bool.and_eq_true, List.any_eq_true,
    decide_eq_true_eq] at h
  rcases h with h | ⟨e, he, hc⟩
  · left; exact h.1
  · right
    exact List.mem_map.mpr ⟨e, he, hc.2⟩

theorem badName_false_elim {existing : List FsPath} {mapping : List (FsPath × FsPath)}
    {p : FsPath} {cand : Str} (h : badName existing mapping p cand = false) :
    ((⟨p.dir, cand⟩ : FsPath) ∈ existing → (⟨p.dir, cand⟩ : FsPath) = p) ∧
    (∀ e ∈ mapping, e.2 = (⟨p.dir, cand⟩ : FsPath) → e.2 = p) := by
  constructor
  · intro hmem
    by_contra hne
    have hbad : badName existing mapping p cand = true := by
      simp only [badName, Bool.or_eq_true, Bool.and_eq_true, decide_eq_true_eq]
      left
      exact ⟨hmem, hne⟩
    rw [hbad] at h
    cases h
  · intro e he heq
    by_contra hne
    have hbad : badName existing mapping p cand = true := by
      simp only [badName, Bool.or_eq_true, Bool.and_eq_true, List.any_eq_true,
        decide_eq_true_eq]
      right
      refine ⟨e, he, ⟨?_, hne⟩, heq⟩
      rw [heq]
    rw [hbad] at h
    cases h

theorem numberedSearch_good {bad : Str → Bool} {title ext : Str} :
    ∀ (f n : Nat), (∃ i, i < f ∧ bad (numberedName title ext (n + i)) = false) →
    bad (numberedSearch bad title ext f n).2 = false := by
  intro f
  induction f with
  | zero =>
    intro n ⟨i, hi, _⟩
    exact absurd hi (Nat.not_lt_zero i)
  | succ f ih =>
    intro n ⟨i, hi, hgood⟩
    simp only [numberedSearch]
    by_cases hb : bad (numberedName title ext n) = true
    · rw [if_pos hb]
      apply ih
      cases i with
      | zero =>
        rw [Nat.add_zero] at hgood
        rw [hgood] at hb
        cases hb
      | succ i' =>
        refine ⟨i', by omega, ?_⟩
        rw [show n + 1 + i' = n + (i' + 1) by omega]
        exact hgood
    · rw [if_neg hb]
      rw [Bool.not_eq_true] at hb
      exact hb

theorem exists_fresh (existing : List FsPath) (mapping : List (FsPath × FsPath))
    (p : FsPath) (title ext : Str) (n : Nat) :
    ∃ i, i < existing.length + mapping.length + 1 ∧
      badName existing mapping p (numberedName title ext (n + i)) = false := by
  by_contra hno
  push_neg at hno
  have hmem : ∀ i < existing.length + mapping.length + 1,
      (⟨p.dir, numberedName title ext (n + i)⟩ : FsPath) ∈ existing ++ mapping.map Prod.snd := by
    intro i hi
    have hb : badName existing mapping p (numberedName title ext (n + i)) = true := by
      have := hno i hi
      rw [← Bool.not_eq_false]
      exact this
    rcases badName_true_mem hb with h | h
    · exact List.mem_append.mpr (Or.inl h)
    · exact List.mem_append.mpr (Or.inr h)
  have hnodup : ((List.range (existing.length + mapping.length + 1)).map
      fun i => (⟨p.dir, numberedName title ext (n + i)⟩ : FsPath)).Nodup := by
    refine List.Nodup.map ?_ (List.nodup_range _)
    intro i j hij
    have hname : numberedName title ext (n + i) = numberedName title ext (n + j) :=
      congrArg FsPath.name hij
    have := numberedName_inj hname
    omega
  have hsub : ∀ x ∈ (List.range (existing.length + mapping.length + 1)).map
      (fun i => (⟨p.dir, numberedName title ext (n + i)⟩ : FsPath)),
      x ∈ existing ++ mapping.map Prod.snd := by
    intro x hx
    obtain ⟨i, hir, rfl⟩ := List.mem_map.mp hx
    exact hmem i (List.mem_range.mp hir)
  have hcard1 : ((List.range (existing.length + mapping.length + 1)).map
      fun i => (⟨p.dir, numberedName title ext (n + i)⟩ : FsPath)).toFinset.card =
      existing.length + mapping.length + 1 := by
    rw [List.toFinset_card_of_nodup hnodup]
    simp
  have hsubF : ((List.range (existing.length + mapping.length + 1)).map
      fun i => (⟨p.dir, numberedName title ext (n + i)⟩ : FsPath)).toFinset ⊆
      (existing ++ mapping.map Prod.snd).toFinset := by
    intro x hx
    rw [List.mem_toFinset] at hx ⊢
    exact hsub x hx
  have hle := Finset.card_le_card hsubF
  have hbadlen := List.toFinset_card_le (existing ++ mapping.map Prod.snd)
  have hlen : (existing ++ mapping.map Prod.snd).length = existing.length + mapping.length := by
    simp
  omega

theorem resolveName_good (existing : List FsPath) (mapping : List (FsPath × FsPath))
    (p : FsPath) (title ext : Str) (c0 : Nat) :
    badName existing mapping p
      (resolveName (badName existing mapping p) title ext c0
        (existing.length + mapping.length + 1)).2 = false := by
  unfold resolveName
  by_cases hb : badName existing mapping p (title ++ ext) = true
  · rw [if_pos hb]
    apply numberedSearch_good
    exact exists_fresh existing mapping p title ext (c0 + 1)
  · rw [if_neg hb]
    rw [Bool.not_eq_true] at hb
    exact hb

theorem planStep_fst (existing : List FsPath) (st : List (FsPath × FsPath) × List (Str × Nat))
    (p : FsPath) :
    ∃ cand, (planStep existing st p).1 = st.1 ++ [(p, ⟨p.dir, cand⟩)] ∧
      badName existing st.1 p cand = false := by
  refine ⟨_, rfl, ?_⟩
  exact resolveName_good existing st.1 p _ _ _

theorem planStep_inv (existing : List FsPath) (p : FsPath) (hp : p ∈ existing)
    (st : List (FsPath × FsPath) × List (Str × Nat))
    (h1 : ∀ e ∈ st.1, e.2 ∈ existing → e.2 = e.1)
    (h2 : ∀ e1 ∈ st.1, ∀ e2 ∈ st.1, e1.2 = e2.2 → e1.1 = e2.1) :
    (∀ e ∈ (planStep existing st p).1, e.2 ∈ existing → e.2 = e.1) ∧
    (∀ e1 ∈ (planStep existing st p).1, ∀ e2 ∈ (planStep existing st p).1,
      e1.2 = e2.2 → e1.1 = e2.1) := by
  obtain ⟨cand, heq, hgood⟩ := planStep_fst existing st p
  obtain ⟨hg1, hg2⟩ := badName_false_elim hgood
  rw [heq]
  constructor
  · intro e he hmem
    rcases List.mem_append.mp he with hold | hnew
    · exact h1 e hold hmem
    · rw [List.mem_singleton.mp hnew] at hmem ⊢
      exact hg1 hmem
  · intro e1 he1 e2 he2 hdd
    rcases List.mem_append.mp he1 with ho1 | hn1
    · rcases List.mem_append.mp he2 with ho2 | hn2
      · exact h2 e1 ho1 e2 ho2 hdd
      · rw [List.mem_singleton.mp hn2] at hdd ⊢
        have hdp : e1.2 = p := hg2 e1 ho1 hdd
        have hsrc : e1.2 = e1.1 := h1 e1 ho1 (hdp ▸ hp)
        rw [← hsrc, hdp]
    · rcases List.mem_append.mp he2 with ho2 | hn2
      · rw [List.mem_singleton.mp hn1] at hdd ⊢
        have hdp : e2.2 = p := hg2 e2 ho2 hdd.symm
        have hsrc : e2.2 = e2.1 := h1 e2 ho2 (hdp ▸ hp)
        rw [← hsrc, hdp]
      · rw [List.mem_singleton.mp hn1, List.mem_singleton.mp hn2]

theorem foldl_planStep_inv (existing : List FsPath) :
    ∀ (fs : List FsPath), (∀ p ∈ fs, p ∈ existing) →
    ∀ (st : List (FsPath × FsPath) × List (Str × Nat)),
      (∀ e ∈ st.1, e.2 ∈ existing → e.2 = e.1) →
      (∀ e1 ∈ st.1, ∀ e2 ∈ st.1, e1.2 = e2.2 → e1.1 = e2.1) →
    (∀ e ∈ (fs.foldl (planStep existing) st).1, e.2 ∈ existing → e.2 = e.1) ∧
    (∀ e1 ∈ (fs.foldl (planStep existing) st).1, ∀ e2 ∈ (fs.foldl (planStep existing) st).1,
      e1.2 = e2.2 → e1.1 = e2.1) := by
  intro fs
  induction fs with
  | nil => intro _ st h1 h2; exact ⟨h1, h2⟩
  | cons p rest ih =>
    intro hmem st h1 h2
    simp only [List.foldl_cons]
    obtain ⟨g1, g2⟩ := planStep_inv existing p (hmem p (List.mem_cons_self p rest)) st h1 h2
    exact ih (fun q hq => hmem q (List.mem_cons_of_mem p hq)) _ g1 g2

/-- Claim C6: for every directory state, the rename plan never maps two
distinct sources to the same destination, and never assigns a destination
equal to an existing file other than the entry's own source. -/
theorem mainPlan_no_collision (existing : List FsPath) :
    planOK existing (mainPlan existing) = true := by
  have hmem : ∀ p ∈ sortPaths (audioFiles existing), p ∈ existing := by
    intro p hp
    have hperm := List.perm_insertionSort rPathLE (audioFiles existing)
    have hin : p ∈ audioFiles existing := hperm.mem_iff.mp hp
    exact (List.mem_filter.mp hin).1
  obtain ⟨g1, g2⟩ := foldl_planStep_inv existing (sortPaths (audioFiles existing)) hmem
    ([], []) (by intro e he; cases he) (by intro e1 he1; cases he1)
  unfold planOK mainPlan
  rw [Bool.and_eq_true]
  constructor
  · rw [List.all_eq_true]
    intro e he
    by_cases h : e.2 ∈ existing
    · simp [h, g1 e he h]
    · simp [h]
  · rw [List.all_eq_true]
    intro e1 he1
    rw [List.all_eq_true]
    intro e2 he2
    by_cases h : e1.2 = e2.2
    · simp [h, g2 e1 he1 e2 he2 h]
    · simp [h]

theorem foldl_applyEffect_previews (plan : List (FsPath × FsPath)) :
    ∀ fs : List FsPath,
      (plan.map fun e => FsEffect.preview e.1 e.2).foldl applyEffect fs = fs := by
  induction plan with
  | nil => intro fs; rfl
  | cons e rest ih =>
    intro fs
    simp only [List.map_cons, List.foldl_cons]
    exact ih fs

/-- Claim C7: a run without `--apply` leaves the directory state unchanged,
while its trace still previews every plan entry and persists the complete
plan (no-op entries included) to the CSV log, and contains no rename. -/
theorem dryRun_preserves_fs (existing : List FsPath) :
    finalFs existing false = existing ∧
    mainRun existing false =
      ((mainPlan existing).map fun e => FsEffect.preview e.1 e.2) ++
        [FsEffect.persist (mainPlan existing)] := by
  have htrace : mainRun existing false =
      ((mainPlan existing).map fun e => FsEffect.preview e.1 e.2) ++
        [FsEffect.persist (mainPlan existing)] := rfl
  refine ⟨?_, htrace⟩
  unfold finalFs
  rw [htrace, List.foldl_append, foldl_applyEffect_previews]
  rfl
